import Mathlib

/-!
Verification of the text-editing core (`native/src/widget/text_input/editor.rs`)
and the canvas/drawing core (`graphics/src/widget/canvas.rs`,
`examples/pure/arc/src/main.rs`) of the `iced` GUI toolkit.

The `Editor` operations are translated directly from `editor.rs`.  The text
buffer `Value` and the text-input `Cursor` are not part of the sampled
sources, so they are modelled from the specification's data model section.
Fallible buffer accesses return `Option`: `none` models an out-of-bounds
access, which the Rust code would surface as a panic.
-/

namespace IcedSpec

/-- Modelled from the spec: the text buffer `Value` (`text_input::Value`,
not in the sampled sources) is an ordered sequence of characters; all
operations are defined over character offsets in `[0, length]`. -/
structure Value where
  chars : List Char
  deriving DecidableEq, Repr

def Value.len (v : Value) : Nat := v.chars.length

/-- Modelled from the spec: insert one character at `index`.  Out of bounds
(`index > len`) is a bounds violation, modelled as `none`. -/
def Value.insert (v : Value) (index : Nat) (c : Char) : Option Value :=
  if index ≤ v.len then
    some ⟨v.chars.take index ++ [c] ++ v.chars.drop index⟩
  else none

/-- Modelled from the spec: insert a whole content sequence at `index`. -/
def Value.insert_many (v : Value) (index : Nat) (content : Value) : Option Value :=
  if index ≤ v.len then
    some ⟨v.chars.take index ++ content.chars ++ v.chars.drop index⟩
  else none

/-- Modelled from the spec: remove the single character at `index`. -/
def Value.remove (v : Value) (index : Nat) : Option Value :=
  if index < v.len then
    some ⟨v.chars.take index ++ v.chars.drop (index + 1)⟩
  else none

/-- Modelled from the spec: remove the range `[left, right)` of characters. -/
def Value.remove_many (v : Value) (left right : Nat) : Option Value :=
  if left ≤ right ∧ right ≤ v.len then
    some ⟨v.chars.take left ++ v.chars.drop right⟩
  else none

/-- Modelled from the spec: the text-input `Cursor` holds either a single
caret offset or a selection range `(anchor, head)`. -/
inductive Cursor where
  | Index (i : Nat)
  | Selection (anchor head : Nat)
  deriving DecidableEq, Repr

/-- Modelled from the spec: derived accessor `start = min(anchor, head)`,
re-clamped against the current buffer length. -/
def Cursor.startOffset (c : Cursor) (v : Value) : Nat :=
  match c with
  | .Index i => min i v.len
  | .Selection a h => min (min a h) v.len

/-- Modelled from the spec: derived accessor `end = max(anchor, head)`,
re-clamped against the current buffer length. -/
def Cursor.endOffset (c : Cursor) (v : Value) : Nat :=
  match c with
  | .Index i => min i v.len
  | .Selection a h => min (max a h) v.len

/-- Modelled from the spec: `selection()` is `none` when `anchor = head`,
otherwise the normalized pair `(min, max)`. -/
def Cursor.selection (c : Cursor) : Option (Nat × Nat) :=
  match c with
  | .Index _ => none
  | .Selection a h => if a = h then none else some (min a h, max a h)

/-- Modelled from the spec: moving left collapses an active selection to its
left edge; otherwise it moves the caret left by one, clamping at 0 and
re-clamping against the current buffer length. -/
def Cursor.moveLeft (c : Cursor) (v : Value) : Cursor :=
  match c.selection with
  | some (s, _) => .Index (min s v.len)
  | none => .Index (c.endOffset v - 1)

/-- Modelled from the spec: moving right by an amount collapses an active
selection to its right edge; otherwise it advances the caret by `amount`,
re-clamping against the current buffer length. -/
def Cursor.moveRightByAmount (c : Cursor) (v : Value) (amount : Nat) : Cursor :=
  match c.selection with
  | some (_, e) => .Index (min e v.len)
  | none => .Index (min (c.endOffset v + amount) v.len)

/-- Modelled from the spec: moving right advances the caret by one. -/
def Cursor.moveRight (c : Cursor) (v : Value) : Cursor :=
  c.moveRightByAmount v 1

/-- The cursor invariant from the spec's data model: the stored offsets lie
within `[0, buffer.length]`. -/
def Cursor.WF (c : Cursor) (v : Value) : Bool :=
  match c with
  | .Index i => i ≤ v.len
  | .Selection a h => a ≤ v.len && h ≤ v.len

/-- The editor state: the exclusively borrowed buffer/cursor pair of
`Editor<'a>` in `editor.rs`. -/
structure Editor where
  value : Value
  cursor : Cursor
  deriving DecidableEq, Repr

/-- `Editor::new` from `editor.rs`. -/
def Editor.new (value : Value) (cursor : Cursor) : Editor := ⟨value, cursor⟩

/-- `Editor::contents` from `editor.rs`. -/
def Editor.contents (e : Editor) : List Char := e.value.chars

/-- `Editor::insert` from `editor.rs`: collapse an active selection, then
insert the character at the cursor's end offset and move right by one. -/
def Editor.insert (e : Editor) (character : Char) : Option Editor := do
  let e ←
    match e.cursor.selection with
    | some (left, right) => do
        let v ← e.value.remove_many left right
        pure (Editor.mk v (e.cursor.moveLeft v))
    | none => pure e
  let v ← e.value.insert (e.cursor.endOffset e.value) character
  pure (Editor.mk v (e.cursor.moveRight v))

/-- `Editor::paste` from `editor.rs`: record the content length, collapse an
active selection, insert the whole content at the cursor's end offset and
move right by the recorded length. -/
def Editor.paste (e : Editor) (content : Value) : Option Editor := do
  let length := content.len
  let e ←
    match e.cursor.selection with
    | some (left, right) => do
        let v ← e.value.remove_many left right
        pure (Editor.mk v (e.cursor.moveLeft v))
    | none => pure e
  let v ← e.value.insert_many (e.cursor.endOffset e.value) content
  pure (Editor.mk v (e.cursor.moveRightByAmount v length))

/-- `Editor::backspace` from `editor.rs`: with a selection, remove it and
move left; otherwise, when the start offset is positive, move left and
remove the character before the old start offset. -/
def Editor.backspace (e : Editor) : Option Editor :=
  match e.cursor.selection with
  | some (s, en) => do
      let v ← e.value.remove_many s en
      pure (Editor.mk v (e.cursor.moveLeft v))
  | none =>
      let s := e.cursor.startOffset e.value
      if s > 0 then do
        let c := e.cursor.moveLeft e.value
        let v ← e.value.remove (s - 1)
        pure (Editor.mk v c)
      else pure e

/-- `Editor::delete` from `editor.rs`: with a selection, remove it and move
left (same as backspace); otherwise, when the end offset is before the end
of the buffer, remove the character at the end offset without moving. -/
def Editor.delete (e : Editor) : Option Editor :=
  match e.cursor.selection with
  | some (s, en) => do
      let v ← e.value.remove_many s en
      pure (Editor.mk v (e.cursor.moveLeft v))
  | none =>
      let en := e.cursor.endOffset e.value
      if en < e.value.len then do
        let v ← e.value.remove en
        pure (Editor.mk v e.cursor)
      else pure e

theorem Value.remove_many_eq (v : Value) {l r : Nat} (h1 : l ≤ r) (h2 : r ≤ v.len) :
    v.remove_many l r = some ⟨v.chars.take l ++ v.chars.drop r⟩ := by
  simp [Value.remove_many, h1, h2]

theorem Value.insert_eq (v : Value) {i : Nat} (h : i ≤ v.len) (c : Char) :
    v.insert i c = some ⟨v.chars.take i ++ [c] ++ v.chars.drop i⟩ := by
  simp [Value.insert, h]

theorem Value.insert_many_eq (v : Value) {i : Nat} (h : i ≤ v.len) (content : Value) :
    v.insert_many i content = some ⟨v.chars.take i ++ content.chars ++ v.chars.drop i⟩ := by
  simp [Value.insert_many, h]

theorem Value.remove_eq (v : Value) {i : Nat} (h : i < v.len) :
    v.remove i = some ⟨v.chars.take i ++ v.chars.drop (i + 1)⟩ := by
  simp [Value.remove, h]

theorem Cursor.endOffset_le (c : Cursor) (v : Value) : c.endOffset v ≤ v.len := by
  cases c <;> simp [Cursor.endOffset]

theorem Cursor.startOffset_le_endOffset (c : Cursor) (v : Value) :
    c.startOffset v ≤ c.endOffset v := by
  cases c <;> simp [Cursor.startOffset, Cursor.endOffset]

theorem Cursor.selection_some_lt {c : Cursor} {s e : Nat} (h : c.selection = some (s, e)) :
    s < e := by
  cases c with
  | Index i => simp [Cursor.selection] at h
  | Selection a b =>
      simp [Cursor.selection] at h
      rcases h with ⟨hne, h1, h2⟩
      omega

theorem Cursor.selection_none_start_eq_end {c : Cursor} (h : c.selection = none) (v : Value) :
    c.startOffset v = c.endOffset v := by
  cases c with
  | Index i => rfl
  | Selection a b =>
      simp [Cursor.selection] at h
      simp [Cursor.startOffset, Cursor.endOffset, h]

theorem Cursor.selection_some_bound {c : Cursor} {s e : Nat} {v : Value}
    (hWF : c.WF v = true) (h : c.selection = some (s, e)) : e ≤ v.len := by
  cases c with
  | Index i => simp [Cursor.selection] at h
  | Selection a b =>
      simp [Cursor.WF] at hWF
      simp [Cursor.selection] at h
      rcases h with ⟨hne, h1, h2⟩
      omega

theorem Cursor.endOffset_grow (c : Cursor) (v w : Value) (n : Nat) (h : w.len = v.len + n) :
    min (c.endOffset w + n) w.len = c.endOffset v + n := by
  cases c <;> simp [Cursor.endOffset] <;> omega

theorem insert_no_selection_eq (B : Value) (cur : Cursor) (ch : Char)
    (hsel : cur.selection = none) :
    Editor.insert ⟨B, cur⟩ ch =
      some ⟨⟨B.chars.take (cur.endOffset B) ++ [ch] ++ B.chars.drop (cur.endOffset B)⟩,
        .Index (cur.endOffset B + 1)⟩ := by
  have hle : cur.endOffset B ≤ B.len := Cursor.endOffset_le cur B
  have hlel : cur.endOffset B ≤ B.chars.length := hle
  have hins := Value.insert_eq B hle ch
  set v1 : Value := ⟨B.chars.take (cur.endOffset B) ++ [ch] ++ B.chars.drop (cur.endOffset B)⟩ with hv1
  have hv1len : v1.len = B.len + 1 := by
    simp [hv1, Value.len, List.length_append, List.length_take, List.length_drop]
    omega
  have hmr : cur.moveRight v1 = .Index (cur.endOffset B + 1) := by
    simp only [Cursor.moveRight, Cursor.moveRightByAmount, hsel]
    rw [Cursor.endOffset_grow cur B v1 1 hv1len]
  simp only [Editor.insert, hsel, Option.bind_eq_bind, Option.pure_def, Option.some_bind,
    hins, hmr]

theorem insert_selection_eq (B : Value) (cur : Cursor) (s e : Nat) (ch : Char)
    (hsel : cur.selection = some (s, e)) (heB : e ≤ B.len) :
    Editor.insert ⟨B, cur⟩ ch =
      some ⟨⟨B.chars.take s ++ [ch] ++ B.chars.drop e⟩, .Index (s + 1)⟩ := by
  have hse : s < e := Cursor.selection_some_lt hsel
  have heBl : e ≤ B.chars.length := heB
  have hsl : s ≤ B.chars.length := by omega
  have hrm : B.remove_many s e = some ⟨B.chars.take s ++ B.chars.drop e⟩ :=
    Value.remove_many_eq B (le_of_lt hse) heB
  set v1 : Value := ⟨B.chars.take s ++ B.chars.drop e⟩ with hv1
  have hv1len : v1.len = s + (B.chars.length - e) := by
    simp [hv1, Value.len, List.length_append, List.length_take, List.length_drop]
    omega
  have hml : cur.moveLeft v1 = .Index s := by
    simp only [Cursor.moveLeft, hsel]
    congr 1
    rw [hv1len]
    omega
  have hend : (Cursor.Index s).endOffset v1 = s := by
    simp only [Cursor.endOffset]
    rw [hv1len]
    omega
  have hts : (List.take s B.chars).length = s := by
    rw [List.length_take]
    omega
  have hins : v1.insert s ch = some ⟨B.chars.take s ++ [ch] ++ B.chars.drop e⟩ := by
    rw [Value.insert_eq v1 (by rw [hv1len]; omega) ch]
    have h1 : v1.chars.take s = B.chars.take s := List.take_left' hts
    have h2 : v1.chars.drop s = B.chars.drop e := List.drop_left' hts
    rw [h1, h2]
  set v2 : Value := ⟨B.chars.take s ++ [ch] ++ B.chars.drop e⟩ with hv2
  have hv2len : v2.len = s + (B.chars.length - e) + 1 := by
    simp [hv2, Value.len, List.length_append, List.length_take, List.length_drop]
    omega
  have hmr : (Cursor.Index s).moveRight v2 = .Index (s + 1) := by
    simp only [Cursor.moveRight, Cursor.moveRightByAmount, Cursor.selection, Cursor.endOffset]
    congr 1
    rw [hv2len]
    omega
  simp only [Editor.insert, hsel, hrm, Option.bind_eq_bind, Option.pure_def, Option.some_bind,
    hml, hend, hins, hmr]

theorem paste_no_selection_eq (B : Value) (cur : Cursor) (content : Value)
    (hsel : cur.selection = none) :
    Editor.paste ⟨B, cur⟩ content =
      some ⟨⟨B.chars.take (cur.endOffset B) ++ content.chars ++ B.chars.drop (cur.endOffset B)⟩,
        .Index (cur.endOffset B + content.len)⟩ := by
  have hle : cur.endOffset B ≤ B.len := Cursor.endOffset_le cur B
  have hlel : cur.endOffset B ≤ B.chars.length := hle
  have hins := Value.insert_many_eq B hle content
  set v1 : Value :=
    ⟨B.chars.take (cur.endOffset B) ++ content.chars ++ B.chars.drop (cur.endOffset B)⟩ with hv1
  have hv1len : v1.len = B.len + content.len := by
    simp [hv1, Value.len, List.length_append, List.length_take, List.length_drop]
    omega
  have hmr : cur.moveRightByAmount v1 content.len = .Index (cur.endOffset B + content.len) := by
    simp only [Cursor.moveRightByAmount, hsel]
    rw [Cursor.endOffset_grow cur B v1 content.len hv1len]
  simp only [Editor.paste, hsel, Option.bind_eq_bind, Option.pure_def, Option.some_bind,
    hins, hmr]

theorem paste_selection_eq (B : Value) (cur : Cursor) (s e : Nat) (content : Value)
    (hsel : cur.selection = some (s, e)) (heB : e ≤ B.len) :
    Editor.paste ⟨B, cur⟩ content =
      some ⟨⟨B.chars.take s ++ content.chars ++ B.chars.drop e⟩, .Index (s + content.len)⟩ := by
  have hse : s < e := Cursor.selection_some_lt hsel
  have heBl : e ≤ B.chars.length := heB
  have hsl : s ≤ B.chars.length := by omega
  have hrm : B.remove_many s e = some ⟨B.chars.take s ++ B.chars.drop e⟩ :=
    Value.remove_many_eq B (le_of_lt hse) heB
  set v1 : Value := ⟨B.chars.take s ++ B.chars.drop e⟩ with hv1
  have hv1len : v1.len = s + (B.chars.length - e) := by
    simp [hv1, Value.len, List.length_append, List.length_take, List.length_drop]
    omega
  have hml : cur.moveLeft v1 = .Index s := by
    simp only [Cursor.moveLeft, hsel]
    congr 1
    rw [hv1len]
    omega
  have hend : (Cursor.Index s).endOffset v1 = s := by
    simp only [Cursor.endOffset]
    rw [hv1len]
    omega
  have hts : (List.take s B.chars).length = s := by
    rw [List.length_take]
    omega
  have hins : v1.insert_many s content = some ⟨B.chars.take s ++ content.chars ++ B.chars.drop e⟩ := by
    rw [Value.insert_many_eq v1 (by rw [hv1len]; omega) content]
    have h1 : v1.chars.take s = B.chars.take s := List.take_left' hts
    have h2 : v1.chars.drop s = B.chars.drop e := List.drop_left' hts
    rw [h1, h2]
  set v2 : Value := ⟨B.chars.take s ++ content.chars ++ B.chars.drop e⟩ with hv2
  have hv2len : v2.len = s + content.len + (B.chars.length - e) := by
    simp [hv2, Value.len, List.length_append, List.length_take, List.length_drop]
    omega
  have hmr : (Cursor.Index s).moveRightByAmount v2 content.len = .Index (s + content.len) := by
    simp only [Cursor.moveRightByAmount, Cursor.selection, Cursor.endOffset]
    congr 1
    rw [hv2len]
    omega
  simp only [Editor.paste, hsel, hrm, Option.bind_eq_bind, Option.pure_def, Option.some_bind,
    hml, hend, hins, hmr]

theorem backspace_selection_eq (B : Value) (cur : Cursor) (s e : Nat)
    (hsel : cur.selection = some (s, e)) (heB : e ≤ B.len) :
    Editor.backspace ⟨B, cur⟩ =
      some ⟨⟨B.chars.take s ++ B.chars.drop e⟩, .Index s⟩ := by
  have hse : s < e := Cursor.selection_some_lt hsel
  have heBl : e ≤ B.chars.length := heB
  have hsl : s ≤ B.chars.length := by omega
  have hrm : B.remove_many s e = some ⟨B.chars.take s ++ B.chars.drop e⟩ :=
    Value.remove_many_eq B (le_of_lt hse) heB
  set v1 : Value := ⟨B.chars.take s ++ B.chars.drop e⟩ with hv1
  have hv1len : v1.len = s + (B.chars.length - e) := by
    simp [hv1, Value.len, List.length_append, List.length_take, List.length_drop]
    omega
  have hml : cur.moveLeft v1 = .Index s := by
    simp only [Cursor.moveLeft, hsel]
    congr 1
    rw [hv1len]
    omega
  simp only [Editor.backspace, hsel, hrm, Option.bind_eq_bind, Option.pure_def,
    Option.some_bind, hml]

theorem delete_selection_eq (B : Value) (cur : Cursor) (s e : Nat)
    (hsel : cur.selection = some (s, e)) (heB : e ≤ B.len) :
    Editor.delete ⟨B, cur⟩ =
      some ⟨⟨B.chars.take s ++ B.chars.drop e⟩, .Index s⟩ := by
  have hse : s < e := Cursor.selection_some_lt hsel
  have heBl : e ≤ B.chars.length := heB
  have hsl : s ≤ B.chars.length := by omega
  have hrm : B.remove_many s e = some ⟨B.chars.take s ++ B.chars.drop e⟩ :=
    Value.remove_many_eq B (le_of_lt hse) heB
  set v1 : Value := ⟨B.chars.take s ++ B.chars.drop e⟩ with hv1
  have hv1len : v1.len = s + (B.chars.length - e) := by
    simp [hv1, Value.len, List.length_append, List.length_take, List.length_drop]
    omega
  have hml : cur.moveLeft v1 = .Index s := by
    simp only [Cursor.moveLeft, hsel]
    congr 1
    rw [hv1len]
    omega
  simp only [Editor.delete, hsel, hrm, Option.bind_eq_bind, Option.pure_def,
    Option.some_bind, hml]

theorem backspace_no_selection_pos_eq (B : Value) (cur : Cursor)
    (hsel : cur.selection = none) (hpos : 0 < cur.startOffset B) :
    Editor.backspace ⟨B, cur⟩ =
      some ⟨⟨B.chars.take (cur.startOffset B - 1) ++ B.chars.drop (cur.startOffset B)⟩,
        .Index (cur.startOffset B - 1)⟩ := by
  have hst := Cursor.selection_none_start_eq_end hsel B
  have hle : cur.endOffset B ≤ B.len := Cursor.endOffset_le cur B
  have hsle : cur.startOffset B ≤ B.len := by rw [hst]; exact hle
  have hml : cur.moveLeft B = .Index (cur.startOffset B - 1) := by
    simp only [Cursor.moveLeft, hsel, hst]
  have hsub : cur.startOffset B - 1 + 1 = cur.startOffset B := by omega
  have hlt1 : cur.startOffset B - 1 < B.len := by omega
  have hrm : B.remove (cur.startOffset B - 1) =
      some ⟨B.chars.take (cur.startOffset B - 1) ++ B.chars.drop (cur.startOffset B)⟩ := by
    rw [Value.remove_eq B hlt1, hsub]
  simp only [Editor.backspace, hsel, hpos, Option.bind_eq_bind, Option.pure_def,
    Option.some_bind, hml, hrm, if_pos hpos, gt_iff_lt, if_true]

theorem backspace_no_selection_zero_eq (B : Value) (cur : Cursor)
    (hsel : cur.selection = none) (h0 : cur.startOffset B = 0) :
    Editor.backspace ⟨B, cur⟩ = some ⟨B, cur⟩ := by
  simp only [Editor.backspace, hsel, h0, gt_iff_lt, lt_self_iff_false, if_false,
    Option.pure_def]

theorem delete_no_selection_lt_eq (B : Value) (cur : Cursor)
    (hsel : cur.selection = none) (hlt : cur.endOffset B < B.len) :
    Editor.delete ⟨B, cur⟩ =
      some ⟨⟨B.chars.take (cur.endOffset B) ++ B.chars.drop (cur.endOffset B + 1)⟩, cur⟩ := by
  have hrm := Value.remove_eq B hlt
  simp only [Editor.delete, hsel, Option.bind_eq_bind, Option.pure_def, Option.some_bind,
    hrm, if_pos hlt]

theorem delete_no_selection_ge_eq (B : Value) (cur : Cursor)
    (hsel : cur.selection = none) (hge : B.len ≤ cur.endOffset B) :
    Editor.delete ⟨B, cur⟩ = some ⟨B, cur⟩ := by
  have hnlt : ¬ cur.endOffset B < B.len := by omega
  simp only [Editor.delete, hsel, if_neg hnlt, Option.pure_def]

/-- Safety of one editing step: the step produced a result (no out-of-bounds
buffer access) and the resulting cursor satisfies the invariant for the
resulting buffer. -/
def EditorOK (o : Option Editor) : Bool :=
  match o with
  | some e => e.cursor.WF e.value
  | none => false

theorem insert_ok (B : Value) (cur : Cursor) (ch : Char) (hWF : cur.WF B = true) :
    EditorOK (Editor.insert ⟨B, cur⟩ ch) = true := by
  cases hsel : cur.selection with
  | none =>
      rw [insert_no_selection_eq B cur ch hsel]
      have hle : cur.endOffset B ≤ B.chars.length := Cursor.endOffset_le cur B
      simp only [EditorOK, Cursor.WF, decide_eq_true_eq]
      simp only [Value.len, List.length_append, List.length_take, List.length_drop,
        List.length_cons, List.length_nil]
      omega
  | some p =>
      obtain ⟨s, e⟩ := p
      have he : e ≤ B.len := Cursor.selection_some_bound hWF hsel
      have hel : e ≤ B.chars.length := he
      have hse : s < e := Cursor.selection_some_lt hsel
      rw [insert_selection_eq B cur s e ch hsel he]
      simp only [EditorOK, Cursor.WF, decide_eq_true_eq]
      simp only [Value.len, List.length_append, List.length_take, List.length_drop,
        List.length_cons, List.length_nil]
      omega

theorem paste_ok (B : Value) (cur : Cursor) (content : Value) (hWF : cur.WF B = true) :
    EditorOK (Editor.paste ⟨B, cur⟩ content) = true := by
  cases hsel : cur.selection with
  | none =>
      rw [paste_no_selection_eq B cur content hsel]
      have hle : cur.endOffset B ≤ B.chars.length := Cursor.endOffset_le cur B
      simp only [EditorOK, Cursor.WF, decide_eq_true_eq]
      simp only [Value.len, List.length_append, List.length_take, List.length_drop]
      omega
  | some p =>
      obtain ⟨s, e⟩ := p
      have he : e ≤ B.len := Cursor.selection_some_bound hWF hsel
      have hel : e ≤ B.chars.length := he
      have hse : s < e := Cursor.selection_some_lt hsel
      rw [paste_selection_eq B cur s e content hsel he]
      simp only [EditorOK, Cursor.WF, decide_eq_true_eq]
      simp only [Value.len, List.length_append, List.length_take, List.length_drop]
      omega

theorem backspace_ok (B : Value) (cur : Cursor) (hWF : cur.WF B = true) :
    EditorOK (Editor.backspace ⟨B, cur⟩) = true := by
  cases hsel : cur.selection with
  | none =>
      by_cases hpos : 0 < cur.startOffset B
      · rw [backspace_no_selection_pos_eq B cur hsel hpos]
        have hst := Cursor.selection_none_start_eq_end hsel B
        have hle : cur.endOffset B ≤ B.chars.length := Cursor.endOffset_le cur B
        simp only [EditorOK, Cursor.WF, decide_eq_true_eq]
        simp only [Value.len, List.length_append, List.length_take, List.length_drop]
        omega
      · rw [backspace_no_selection_zero_eq B cur hsel (by omega)]
        simpa [EditorOK] using hWF
  | some p =>
      obtain ⟨s, e⟩ := p
      have he : e ≤ B.len := Cursor.selection_some_bound hWF hsel
      have hel : e ≤ B.chars.length := he
      have hse : s < e := Cursor.selection_some_lt hsel
      rw [backspace_selection_eq B cur s e hsel he]
      simp only [EditorOK, Cursor.WF, decide_eq_true_eq]
      simp only [Value.len, List.length_append, List.length_take, List.length_drop]
      omega

theorem delete_ok (B : Value) (cur : Cursor) (hWF : cur.WF B = true) :
    EditorOK (Editor.delete ⟨B, cur⟩) = true := by
  cases hsel : cur.selection with
  | none =>
      by_cases hlt : cur.endOffset B < B.len
      · rw [delete_no_selection_lt_eq B cur hsel hlt]
        cases cur with
        | Index i =>
            simp only [Cursor.WF, decide_eq_true_eq] at hWF
            simp only [Cursor.endOffset] at hlt ⊢
            simp only [EditorOK, Cursor.WF, decide_eq_true_eq]
            simp only [Value.len, List.length_append, List.length_take,
              List.length_drop] at hWF hlt ⊢
            omega
        | Selection a h =>
            simp only [Cursor.WF, Bool.and_eq_true, decide_eq_true_eq] at hWF
            simp only [Cursor.endOffset] at hlt ⊢
            simp only [EditorOK, Cursor.WF, Bool.and_eq_true, decide_eq_true_eq]
            simp only [Value.len, List.length_append, List.length_take,
              List.length_drop] at hWF hlt ⊢
            omega
      · rw [delete_no_selection_ge_eq B cur hsel (by omega)]
        simpa [EditorOK] using hWF
  | some p =>
      obtain ⟨s, e⟩ := p
      have he : e ≤ B.len := Cursor.selection_some_bound hWF hsel
      have hel : e ≤ B.chars.length := he
      have hse : s < e := Cursor.selection_some_lt hsel
      rw [delete_selection_eq B cur s e hsel he]
      simp only [EditorOK, Cursor.WF, decide_eq_true_eq]
      simp only [Value.len, List.length_append, List.length_take, List.length_drop]
      omega

/-- C1: for every buffer `B`, every active selection `(s, e)` with
`0 ≤ s < e ≤ |B|`, and every character `ch`, `Editor.insert ch` produces
the buffer `B[..s] ++ ch ++ B[e..]` and leaves the caret at offset `s + 1`
with no selection. -/
theorem insert_replaces_selection (B : Value) (a h s e : Nat) (ch : Char)
    (hs : s = min a h) (he : e = max a h) (hse : s < e) (heB : e ≤ B.len) :
    Editor.insert ⟨B, .Selection a h⟩ ch =
      some ⟨⟨B.chars.take s ++ [ch] ++ B.chars.drop e⟩, .Index (s + 1)⟩ ∧
    (Cursor.Index (s + 1)).selection = none := by
  have hne : a ≠ h := by omega
  have hsel : (Cursor.Selection a h).selection = some (s, e) := by
    simp [Cursor.selection, hne, hs, he]
  exact ⟨insert_selection_eq B _ s e ch hsel heB, rfl⟩

/-- Witness for C1 at the spec's scenario buffer "hello" with selection
`(1, 4)`. -/
theorem insert_replaces_selection_witness :
    (1 : Nat) = min 1 4 ∧ (4 : Nat) = max 1 4 ∧ 1 < 4 ∧
    4 ≤ (Value.mk ['h', 'e', 'l', 'l', 'o']).len ∧
    (Editor.insert ⟨⟨['h', 'e', 'l', 'l', 'o']⟩, .Selection 1 4⟩ 'x' =
      some ⟨⟨['h', 'x', 'o']⟩, .Index 2⟩ ∧
    (Cursor.Index 2).selection = none) :=
  ⟨rfl, rfl, by decide, by decide,
    insert_replaces_selection ⟨['h', 'e', 'l', 'l', 'o']⟩ 1 4 1 4 'x' rfl rfl
      (by decide) (by decide)⟩

/-- C2: for every buffer `B`, caret offset `c ≤ |B|` with no active
selection, and every content, `Editor.paste content` produces
`B[..c] ++ content ++ B[c..]` and leaves the caret at `c + |content|`. -/
theorem paste_inserts_at_caret (B : Value) (c : Nat) (hc : c ≤ B.len) (content : Value) :
    Editor.paste ⟨B, .Index c⟩ content =
      some ⟨⟨B.chars.take c ++ content.chars ++ B.chars.drop c⟩,
        .Index (c + content.len)⟩ := by
  have hend : (Cursor.Index c).endOffset B = c := by
    simp only [Cursor.endOffset]
    omega
  have h := paste_no_selection_eq B (.Index c) content rfl
  rw [hend] at h
  exact h

/-- Witness for C2 at buffer "ab", caret 1, content "xy". -/
theorem paste_inserts_at_caret_witness :
    1 ≤ (Value.mk ['a', 'b']).len ∧
    Editor.paste ⟨⟨['a', 'b']⟩, .Index 1⟩ ⟨['x', 'y']⟩ =
      some ⟨⟨['a', 'x', 'y', 'b']⟩, .Index 3⟩ :=
  ⟨by decide, paste_inserts_at_caret ⟨['a', 'b']⟩ 1 (by decide) ⟨['x', 'y']⟩⟩

/-- C3: on the same buffer and cursor with an active selection,
`Editor.delete` and `Editor.backspace` produce the same resulting buffer
and the same resulting caret. -/
theorem delete_backspace_symmetry (B : Value) (cur : Cursor) (p : Nat × Nat)
    (hsel : cur.selection = some p) :
    Editor.delete ⟨B, cur⟩ = Editor.backspace ⟨B, cur⟩ := by
  simp only [Editor.delete, Editor.backspace, hsel]

/-- Witness for C3 at the spec's scenario buffer "hello" with selection
`(1, 4)`. -/
theorem delete_backspace_symmetry_witness :
    (Cursor.Selection 1 4).selection = some (1, 4) ∧
    Editor.delete ⟨⟨['h', 'e', 'l', 'l', 'o']⟩, .Selection 1 4⟩ =
      Editor.backspace ⟨⟨['h', 'e', 'l', 'l', 'o']⟩, .Selection 1 4⟩ :=
  ⟨by decide,
    delete_backspace_symmetry ⟨['h', 'e', 'l', 'l', 'o']⟩ (.Selection 1 4) (1, 4)
      (by decide)⟩

/-- C4: with no active selection and caret `c`: if `c < |B|`,
`Editor.delete` removes exactly the character at offset `c` and leaves the
caret at `c`; if `c = |B|`, it leaves buffer and caret unchanged. -/
theorem delete_no_selection_behavior (B : Value) (c : Nat) (hc : c ≤ B.len) :
    (c < B.len → Editor.delete ⟨B, .Index c⟩ =
      some ⟨⟨B.chars.take c ++ B.chars.drop (c + 1)⟩, .Index c⟩) ∧
    (c = B.len → Editor.delete ⟨B, .Index c⟩ = some ⟨B, .Index c⟩) := by
  have hend : (Cursor.Index c).endOffset B = c := by
    simp only [Cursor.endOffset]
    omega
  constructor
  · intro hlt
    have h := delete_no_selection_lt_eq B (.Index c) rfl (by rw [hend]; exact hlt)
    rw [hend] at h
    exact h
  · intro heq
    exact delete_no_selection_ge_eq B (.Index c) rfl (by rw [hend]; omega)

/-- Witness for C4: both branches at buffer "ab", carets 1 and 2. -/
theorem delete_no_selection_behavior_witness :
    Editor.delete ⟨⟨['a', 'b']⟩, .Index 1⟩ = some ⟨⟨['a']⟩, .Index 1⟩ ∧
    Editor.delete ⟨⟨['a', 'b']⟩, .Index 2⟩ = some ⟨⟨['a', 'b']⟩, .Index 2⟩ :=
  ⟨(delete_no_selection_behavior ⟨['a', 'b']⟩ 1 (by decide)).1 (by decide),
   (delete_no_selection_behavior ⟨['a', 'b']⟩ 2 (by decide)).2 rfl⟩

/-- C5: from any valid non-selected state, `Editor.insert x` followed by
`Editor.backspace` restores the original buffer and caret exactly. -/
theorem insert_backspace_roundtrip (B : Value) (i : Nat) (hi : i ≤ B.len) (x : Char) :
    (Editor.insert ⟨B, .Index i⟩ x).bind Editor.backspace = some ⟨B, .Index i⟩ := by
  have hil : i ≤ B.chars.length := hi
  have hend : (Cursor.Index i).endOffset B = i := by
    simp only [Cursor.endOffset]
    omega
  have hins := insert_no_selection_eq B (.Index i) x rfl
  rw [hend] at hins
  rw [hins, Option.some_bind]
  set v1 : Value := ⟨B.chars.take i ++ [x] ++ B.chars.drop i⟩ with hv1
  have hv1len : v1.len = B.chars.length + 1 := by
    simp [hv1, Value.len, List.length_append, List.length_take, List.length_drop]
    omega
  have hstart : (Cursor.Index (i + 1)).startOffset v1 = i + 1 := by
    simp only [Cursor.startOffset]
    rw [hv1len]
    omega
  have hbs := backspace_no_selection_pos_eq v1 (.Index (i + 1)) rfl (by rw [hstart]; omega)
  rw [hstart] at hbs
  rw [hbs]
  simp only [Nat.add_sub_cancel]
  have hts : (B.chars.take i).length = i := by
    rw [List.length_take]
    omega
  have hts1 : (B.chars.take i ++ [x]).length = i + 1 := by
    simp only [List.length_append, List.length_cons, List.length_nil, hts]
  have h1 : v1.chars.take i = B.chars.take i := by
    have hassoc : v1.chars = B.chars.take i ++ ([x] ++ B.chars.drop i) := by
      simp [hv1, List.append_assoc]
    rw [hassoc]
    exact List.take_left' hts
  have h2 : v1.chars.drop (i + 1) = B.chars.drop i := List.drop_left' hts1
  rw [h1, h2, List.take_append_drop]

/-- Witness for C5 at buffer "ab", caret 1, character 'x'. -/
theorem insert_backspace_roundtrip_witness :
    1 ≤ (Value.mk ['a', 'b']).len ∧
    (Editor.insert ⟨⟨['a', 'b']⟩, .Index 1⟩ 'x').bind Editor.backspace =
      some ⟨⟨['a', 'b']⟩, .Index 1⟩ :=
  ⟨by decide, insert_backspace_roundtrip ⟨['a', 'b']⟩ 1 (by decide) 'x'⟩

/-- Counterexample to C6 as stated: `Editor.insert` on the empty buffer with
caret at 0 is not a no-op — it inserts the character. -/
theorem insert_on_empty_not_noop :
    Editor.insert ⟨⟨[]⟩, .Index 0⟩ 'x' ≠ some ⟨⟨[]⟩, .Index 0⟩ := by decide

/-- C6 (amended): every editing operation on a state satisfying the cursor
invariant succeeds without out-of-bounds access and preserves the
invariant; the derived bounds always satisfy
`start ≤ end ≤ buffer.length`; and `backspace` and `delete` (the
operations that only remove text) are safe no-ops on an empty buffer with
caret at 0, while `insert`/`paste` there are safe but do modify the
buffer. -/
theorem editor_ops_safe (B : Value) (cur : Cursor) (ch : Char) (content : Value)
    (hWF : cur.WF B = true) :
    EditorOK (Editor.insert ⟨B, cur⟩ ch) = true ∧
    EditorOK (Editor.paste ⟨B, cur⟩ content) = true ∧
    EditorOK (Editor.backspace ⟨B, cur⟩) = true ∧
    EditorOK (Editor.delete ⟨B, cur⟩) = true ∧
    (∀ (c2 : Cursor) (v2 : Value),
      c2.startOffset v2 ≤ c2.endOffset v2 ∧ c2.endOffset v2 ≤ v2.len) ∧
    Editor.backspace ⟨⟨[]⟩, .Index 0⟩ = some ⟨⟨[]⟩, .Index 0⟩ ∧
    Editor.delete ⟨⟨[]⟩, .Index 0⟩ = some ⟨⟨[]⟩, .Index 0⟩ :=
  ⟨insert_ok B cur ch hWF, paste_ok B cur content hWF, backspace_ok B cur hWF,
   delete_ok B cur hWF,
   fun c2 v2 => ⟨Cursor.startOffset_le_endOffset c2 v2, Cursor.endOffset_le c2 v2⟩,
   by decide, by decide⟩

/-- Witness for the amended C6 at buffer "ab" with selection `(0, 2)`. -/
theorem editor_ops_safe_witness :
    Cursor.WF (.Selection 0 2) ⟨['a', 'b']⟩ = true ∧
    EditorOK (Editor.insert ⟨⟨['a', 'b']⟩, .Selection 0 2⟩ 'x') = true ∧
    EditorOK (Editor.paste ⟨⟨['a', 'b']⟩, .Selection 0 2⟩ ⟨['q']⟩) = true ∧
    EditorOK (Editor.backspace ⟨⟨['a', 'b']⟩, .Selection 0 2⟩) = true ∧
    EditorOK (Editor.delete ⟨⟨['a', 'b']⟩, .Selection 0 2⟩) = true := by
  have hall := editor_ops_safe ⟨['a', 'b']⟩ (.Selection 0 2) 'x' ⟨['q']⟩ (by decide)
  exact ⟨by decide, hall.1, hall.2.1, hall.2.2.1, hall.2.2.2.1⟩

/-- Modelled from the spec: a window-relative position delivered by the
external pointer event feed.  Coordinates are exact rationals; the claims
about the canvas only compare coordinates, so no floating-point rounding is
involved. -/
structure Point where
  x : ℚ
  y : ℚ
  deriving DecidableEq

/-- Modelled from the spec: a translation vector applied to rendered
primitives. -/
structure Vector where
  x : ℚ
  y : ℚ
  deriving DecidableEq

/-- Modelled from the spec: a width/height pair, the implicit cache key
"last size drawn at". -/
structure Size where
  width : ℚ
  height : ℚ
  deriving DecidableEq

/-- Modelled from the spec: the layout bounds handed to the canvas. -/
structure Rectangle where
  x : ℚ
  y : ℚ
  width : ℚ
  height : ℚ
  deriving DecidableEq

/-- Modelled from the spec: the external event feed delivers mouse, window,
touch and keyboard events; payloads are opaque tokens since the canvas only
routes them. -/
inductive IcedEvent where
  | Mouse (m : Nat)
  | Window (w : Nat)
  | Touch (t : Nat)
  | Keyboard (k : Nat)
  deriving DecidableEq

/-- The canvas-level event type: only mouse and keyboard events reach the
drawing program (`canvas::Event` in `canvas.rs`). -/
inductive CanvasEvent where
  | Mouse (m : Nat)
  | Keyboard (k : Nat)
  deriving DecidableEq

/-- Modelled from the spec: an event is either captured by the widget or
ignored ("not consumed"), letting it propagate. -/
inductive Status where
  | Ignored
  | Captured
  deriving DecidableEq

/-- Modelled from the spec: the surface-relative cursor concept the canvas
builds from the window position. -/
inductive CanvasCursor where
  | Available (p : Point)
  | Unavailable
  deriving DecidableEq

/-- `Cursor::from_window_position` as used by `canvas.rs`. -/
def CanvasCursor.from_window_position (p : Point) : CanvasCursor := .Available p

/-- Modelled from the spec: the renderer consumes immutable vector-geometry
primitives; `Group` mirrors `Primitive::Group` from `canvas.rs`, and all
other primitive kinds are opaque leaves. -/
inductive Primitive where
  | Group (primitives : List Primitive)
  | Leaf (id : Nat)

/-- Modelled from the spec: a geometry is an immutable drawing output
wrapping a primitive. -/
structure Geometry where
  primitive : Primitive

/-- `Geometry::into_primitive` as used by `canvas.rs`. -/
def Geometry.into_primitive (g : Geometry) : Primitive := g.primitive

/-- Modelled from the spec: a drawing program is a pure draw function of
bounds and cursor, plus an update capability of
`(event, bounds, cursor) -> (status, message)`. -/
structure Program (Msg : Type) where
  update : CanvasEvent → Rectangle → CanvasCursor → Status × Option Msg
  draw : Rectangle → CanvasCursor → List Geometry

/-- Modelled from the spec: the width/height policy of a widget (fixed
units, fill, fractional, shrink). -/
inductive Length where
  | Fill
  | Shrink
  | FillPortion (factor : Nat)
  | Units (units : Nat)
  deriving DecidableEq

/-- The canvas widget state from `canvas.rs`: a width, a height and a
drawing program. -/
structure Canvas (P : Type) where
  width : Length
  height : Length
  program : P

/-- `Canvas::DEFAULT_SIZE` from `canvas.rs`. -/
def Canvas.DEFAULT_SIZE : Nat := 100

/-- `Canvas::new` from `canvas.rs`. -/
def Canvas.new {P : Type} (program : P) : Canvas P :=
  { width := .Units Canvas.DEFAULT_SIZE,
    height := .Units Canvas.DEFAULT_SIZE,
    program := program }

/-- The `width` builder method from `canvas.rs` (renamed: in Lean the field
and the method cannot share a name). -/
def Canvas.withWidth {P : Type} (c : Canvas P) (width : Length) : Canvas P :=
  { c with width := width }

/-- The `height` builder method from `canvas.rs`. -/
def Canvas.withHeight {P : Type} (c : Canvas P) (height : Length) : Canvas P :=
  { c with height := height }

/-- `Canvas::on_event` from `canvas.rs`: translate the native event into a
canvas event (mouse and keyboard only); if one exists, delegate to the
program's update, publish its optional message to the shell, and return
its status; otherwise report `Ignored`.  The returned list is the sequence
of messages published to the shell during the call. -/
def Canvas.on_event {Msg : Type} (c : Canvas (Program Msg)) (event : IcedEvent)
    (bounds : Rectangle) (cursor_position : Point) : Status × List Msg :=
  let canvas_event : Option CanvasEvent :=
    match event with
    | .Mouse mouse_event => some (.Mouse mouse_event)
    | .Keyboard keyboard_event => some (.Keyboard keyboard_event)
    | _ => none
  let cursor := CanvasCursor.from_window_position cursor_position
  match canvas_event with
  | some ce =>
      let r := c.program.update ce bounds cursor
      (r.1, match r.2 with | some message => [message] | none => [])
  | none => (.Ignored, [])

/-- `Canvas::draw` from `canvas.rs`: degenerate bounds (width or height
below one unit) contribute nothing; otherwise the program's geometry is
drawn as one `Group` primitive translated by the bounds origin.  The
result is the list of translated primitives handed to the renderer. -/
def Canvas.draw {Msg : Type} (c : Canvas (Program Msg)) (bounds : Rectangle)
    (cursor_position : Point) : List (Vector × Primitive) :=
  if bounds.width < 1 ∨ bounds.height < 1 then []
  else
    let translation : Vector := ⟨bounds.x, bounds.y⟩
    let cursor := CanvasCursor.from_window_position cursor_position
    [(translation,
      Primitive.Group ((c.program.draw bounds cursor).map Geometry.into_primitive))]

/-- Modelled from the spec: the geometry cache is an optional memoized
payload keyed implicitly by the last size drawn at (the `canvas::Cache`
used by the arc example is not among the sampled sources). -/
inductive CacheState (G : Type) where
  | Empty
  | Filled (bounds : Size) (geometry : G)
  deriving DecidableEq

/-- Modelled from the spec: `Cache::clear` explicitly invalidates the
cache, as the arc example's update does on every tick. -/
def CacheState.clear {G : Type} (_ : CacheState G) : CacheState G := .Empty

/-- Modelled from the spec: `Cache::draw` returns the cached geometry
verbatim when a payload exists for the same bounds; otherwise it runs the
drawing closure with the current bounds, stores the fresh geometry as the
new payload and returns it.  The `Bool` records whether the closure was
invoked (a regeneration). -/
def CacheState.draw {G : Type} (st : CacheState G) (bounds : Size) (f : Size → G) :
    G × CacheState G × Bool :=
  match st with
  | .Filled b g =>
      if b = bounds then (g, .Filled b g, false)
      else
        let g2 := f bounds
        (g2, .Filled bounds g2, true)
  | .Empty =>
      let g2 := f bounds
      (g2, .Filled bounds g2, true)

/-- C7: drawing twice with unchanged bounds and no intervening clear returns
the first call's geometry without invoking any drawing closure again; after
a clear, the next draw always regenerates. -/
theorem cache_draw_memoizes (G : Type) (st : CacheState G) (bounds : Size)
    (f g : Size → G) :
    ((st.draw bounds f).2.1.draw bounds g =
      ((st.draw bounds f).1, (st.draw bounds f).2.1, false)) ∧
    (st.clear.draw bounds f).2.2 = true := by
  constructor
  · cases st with
    | Empty => simp [CacheState.draw]
    | Filled b g0 =>
        by_cases hb : b = bounds
        · subst hb
          simp [CacheState.draw]
        · simp [CacheState.draw, hb]
  · simp [CacheState.clear, CacheState.draw]

/-- C8: `on_event` ignores events that are neither mouse nor keyboard,
publishing nothing and returning `Ignored` regardless of the program; for
mouse and keyboard events it returns the program's status and publishes
the program's optional message exactly once (its `toList`). -/
theorem on_event_dispatch (Msg : Type) (c : Canvas (Program Msg))
    (bounds : Rectangle) (pos : Point) :
    (∀ w, Canvas.on_event c (.Window w) bounds pos = (.Ignored, [])) ∧
    (∀ t, Canvas.on_event c (.Touch t) bounds pos = (.Ignored, [])) ∧
    (∀ m, Canvas.on_event c (.Mouse m) bounds pos =
      ((c.program.update (.Mouse m) bounds (.Available pos)).1,
        (c.program.update (.Mouse m) bounds (.Available pos)).2.toList)) ∧
    (∀ k, Canvas.on_event c (.Keyboard k) bounds pos =
      ((c.program.update (.Keyboard k) bounds (.Available pos)).1,
        (c.program.update (.Keyboard k) bounds (.Available pos)).2.toList)) := by
  refine ⟨fun w => rfl, fun t => rfl, fun m => ?_, fun k => ?_⟩
  · rcases hr : c.program.update (.Mouse m) bounds (.Available pos) with ⟨st, msg⟩
    simp only [Canvas.on_event, CanvasCursor.from_window_position, hr]
    cases msg <;> rfl
  · rcases hr : c.program.update (.Keyboard k) bounds (.Available pos) with ⟨st, msg⟩
    simp only [Canvas.on_event, CanvasCursor.from_window_position, hr]
    cases msg <;> rfl

/-- C9: degenerate bounds (width < 1 or height < 1) make `Canvas.draw`
contribute no primitives without consulting the program; otherwise the
program's geometry is drawn as a single translated group. -/
theorem draw_degenerate_bounds (Msg : Type) (c : Canvas (Program Msg))
    (bounds : Rectangle) (pos : Point) :
    (bounds.width < 1 ∨ bounds.height < 1 → Canvas.draw c bounds pos = []) ∧
    (1 ≤ bounds.width → 1 ≤ bounds.height →
      Canvas.draw c bounds pos =
        [(⟨bounds.x, bounds.y⟩,
          Primitive.Group ((c.program.draw bounds (.Available pos)).map
            Geometry.into_primitive))]) := by
  constructor
  · intro hdeg
    simp [Canvas.draw, hdeg]
  · intro hw hh
    have hnot : ¬ (bounds.width < 1 ∨ bounds.height < 1) := by
      push_neg
      exact ⟨hw, hh⟩
    simp [Canvas.draw, hnot, CanvasCursor.from_window_position]

/-- A concrete drawing program used only to witness C9. -/
def leafProgram : Program Unit :=
  { update := fun _ _ _ => (.Ignored, none),
    draw := fun _ _ => [⟨.Leaf 0⟩] }

/-- Witness for C9: both branches at concrete degenerate and non-degenerate
bounds. -/
theorem draw_degenerate_bounds_witness :
    ((1 : ℚ) / 2 < 1 ∨ (5 : ℚ) < 1) ∧
    Canvas.draw (Canvas.new leafProgram) ⟨0, 0, 1 / 2, 5⟩ ⟨0, 0⟩ = [] ∧
    (1 : ℚ) ≤ 3 ∧ (1 : ℚ) ≤ 4 ∧
    Canvas.draw (Canvas.new leafProgram) ⟨0, 0, 3, 4⟩ ⟨0, 0⟩ =
      [(⟨0, 0⟩, Primitive.Group [.Leaf 0])] := by
  have h1 := (draw_degenerate_bounds Unit (Canvas.new leafProgram) ⟨0, 0, 1 / 2, 5⟩ ⟨0, 0⟩).1
  have h2 := (draw_degenerate_bounds Unit (Canvas.new leafProgram) ⟨0, 0, 3, 4⟩ ⟨0, 0⟩).2
  refine ⟨Or.inl (by norm_num), h1 (Or.inl (by norm_num)), by norm_num, by norm_num, ?_⟩
  have h3 := h2 (by norm_num) (by norm_num)
  simpa [leafProgram, Canvas.new, Geometry.into_primitive] using h3

/-- C10: `Canvas.new` sets both width and height to the fixed default of
100 units, and each builder method changes only its own field. -/
theorem canvas_new_default_size (P : Type) (p : P) (c : Canvas P) (w hgt : Length) :
    (Canvas.new p).width = Length.Units 100 ∧
    (Canvas.new p).height = Length.Units 100 ∧
    (Canvas.new p).program = p ∧
    (c.withWidth w).width = w ∧
    (c.withWidth w).height = c.height ∧
    (c.withWidth w).program = c.program ∧
    (c.withHeight hgt).height = hgt ∧
    (c.withHeight hgt).width = c.width ∧
    (c.withHeight hgt).program = c.program :=
  ⟨rfl, rfl, rfl, rfl, rfl, rfl, rfl, rfl, rfl⟩

end IcedSpec
